import Mathlib

/-!
Verification of the `index-pool` crate: a pool that issues and reclaims unique
natural-number indices, keeping reclaimed holes as coalesced closed ranges in a
`BTreeSet<Range>` ordered by a custom comparator, below a moving frontier
`next_id`.

The definitions below are a shallow embedding of `src/lib.rs` and `src/iter.rs`.
`usize` is modelled as `Nat` (the code's subtractions are guarded, and each
guard is verified explicitly where a claim is about it).  The `BTreeSet` is
modelled as the sorted list of its elements; its operations (`contains`, `get`,
`insert`, `remove`) are modelled by linear search with the set's comparator
applied as Rust's `BTreeSet` does: the search key is the LEFT argument of
`Ord::cmp` (std's `search_linear` runs `key.cmp(elem)`), and `insert` is a
no-op when an element comparing equal is already present.
-/

/-- Closed interval `[min, max]` of `usize`, from `struct Range` in lib.rs. -/
structure Range where
  min : Nat
  max : Nat
deriving DecidableEq

/-- `Range::id(id)`: the singleton range `[id, id]`. -/
def Range.id (i : Nat) : Range := ⟨i, i⟩

/-- `Range::empty`: `self.min > self.max`. -/
def Range.empty (r : Range) : Bool := decide (r.max < r.min)

/-- `Range::push_front`: decrement `min` (callers guard `min > 0`; `Nat`
subtraction truncates at zero, which claim C10 addresses). -/
def Range.push_front (r : Range) : Range := ⟨r.min - 1, r.max⟩

/-- `Range::push_back`: increment `max`. -/
def Range.push_back (r : Range) : Range := ⟨r.min, r.max + 1⟩

/-- `Range::pop_front`: increment `min`. -/
def Range.pop_front (r : Range) : Range := ⟨r.min + 1, r.max⟩

/-- `Range::merge`: componentwise min/max of the endpoints. -/
def Range.merge (a b : Range) : Range := ⟨Nat.min a.min b.min, Nat.max a.max b.max⟩

/-- `Range::contains`: `min <= value && value <= max`. -/
def Range.contains (r : Range) (value : Nat) : Bool := decide (r.min ≤ value ∧ value ≤ r.max)

/-- `Ord for Range`: `Equal` when `self` contains an endpoint of `other`,
otherwise compare the `min` fields. -/
def Range.cmp (a b : Range) : Ordering :=
  if a.contains b.min || a.contains b.max then Ordering.eq
  else compare a.min b.min

/-- Two ranges share at least one point (for valid ranges, nonempty
intersection). -/
def Range.intersects (a b : Range) : Prop := a.min ≤ b.max ∧ b.min ≤ a.max

instance (a b : Range) : Decidable (a.intersects b) := by
  unfold Range.intersects; infer_instance

/-- Model of `BTreeSet::<Range>::contains(&key)`: some element compares equal
to the key, the key being the left `cmp` argument as in std's search. -/
def fsContains (l : List Range) (key : Range) : Bool :=
  l.any (fun e => Range.cmp key e == Ordering.eq)

/-- Model of `BTreeSet::<Range>::get(&key)`: the first element (in sorted
order) comparing equal to the key. -/
def fsGet (l : List Range) (key : Range) : Option Range :=
  l.find? (fun e => Range.cmp key e == Ordering.eq)

/-- Model of `BTreeSet::<Range>::remove(&key)`: drop the element comparing
equal to the key, if any. -/
def fsRemove (l : List Range) (key : Range) : List Range :=
  l.eraseP (fun e => Range.cmp key e == Ordering.eq)

/-- Model of `BTreeSet::<Range>::insert(v)`: place `v` at its sorted position;
when an element comparing equal is already present the insert is a no-op (std
keeps the existing element). -/
def fsInsert (l : List Range) (v : Range) : List Range :=
  match l with
  | [] => [v]
  | e :: rest =>
    match Range.cmp v e with
    | Ordering.lt => v :: e :: rest
    | Ordering.eq => e :: rest
    | Ordering.gt => e :: fsInsert rest v

/-- Error returned by `return_id` on an identifier that is not in use. -/
inductive AlreadyReturned : Type where
  | mk : AlreadyReturned
deriving DecidableEq

/-- Error returned by `request_id` on an identifier that is already in use. -/
inductive AlreadyInUse : Type where
  | mk : AlreadyInUse
deriving DecidableEq

deriving instance DecidableEq for Except

/-- `struct IndexPool`: frontier `next_id` and the free set, modelled as the
sorted list of its ranges. -/
structure IndexPool where
  next_id : Nat
  free_list : List Range
deriving DecidableEq

/-- `IndexPool::with_initial_index`. -/
def IndexPool.with_initial_index (index : Nat) : IndexPool :=
  { next_id := index, free_list := [] }

/-- `IndexPool::new`: frontier starts at 0. -/
def IndexPool.new : IndexPool := IndexPool.with_initial_index 0

/-- `IndexPool::maximum`: returns `next_id`. -/
def IndexPool.maximum (s : IndexPool) : Nat := s.next_id

/-- `IndexPool::new_id`: take the lowest free range's minimum (shrinking or
removing that range), or take and bump the frontier.  Returns the issued id
and the updated pool. -/
def IndexPool.new_id (s : IndexPool) : Nat × IndexPool :=
  match s.free_list with
  | first_range :: _ =>
    let fl := fsRemove s.free_list first_range
    let reduced := first_range.pop_front
    let fl := if reduced.empty then fl else fsInsert fl reduced
    (first_range.min, { s with free_list := fl })
  | [] => (s.next_id, { s with next_id := s.next_id + 1 })

/-- `IndexPool::set_free`: probe for a range adjacent on the left (guarded by
`id > 0`) and on the right, merge with whatever is found, and insert the
result. -/
def IndexPool.set_free (s : IndexPool) (id : Nat) : IndexPool :=
  let range := Range.id id
  let range_front := if id > 0 then range.push_front else range
  let range_back := range.push_back
  let combine_front := fsGet s.free_list range_front
  let combine_back := fsGet s.free_list range_back
  match combine_front, combine_back with
  | some front_range, some back_range =>
    let combined := (front_range.merge range).merge back_range
    { s with free_list :=
        fsInsert (fsRemove (fsRemove s.free_list front_range) back_range) combined }
  | some front_range, none =>
    let combined := front_range.merge range
    { s with free_list := fsInsert (fsRemove s.free_list front_range) combined }
  | none, some back_range =>
    let combined := back_range.merge range
    { s with free_list := fsInsert (fsRemove s.free_list back_range) combined }
  | none, none =>
    { s with free_list := fsInsert s.free_list range }

/-- `IndexPool::collapse_next`: if the highest range abuts the frontier,
remove it and pull the frontier down to its minimum. -/
def IndexPool.collapse_next (s : IndexPool) : Bool × IndexPool :=
  match s.free_list.getLast? with
  | some last_range =>
    if last_range.max + 1 = s.next_id then
      (true, { next_id := last_range.min, free_list := fsRemove s.free_list last_range })
    else (false, s)
  | none => (false, s)

/-- The `while self.collapse_next() {}` loop of `return_id`; each successful
iteration removes one stored range, so the list length bounds the iteration
count and serves as fuel. -/
def collapseLoop : Nat → IndexPool → IndexPool
  | 0, s => s
  | fuel + 1, s =>
    let r := s.collapse_next
    if r.1 then collapseLoop fuel r.2 else r.2

/-- `IndexPool::return_id`: reject ids at or above the frontier and ids the
set lookup reports as free; otherwise either pull the frontier down by one or
mark the id free, then run the collapse loop. -/
def IndexPool.return_id (s : IndexPool) (id : Nat) : Except AlreadyReturned Unit × IndexPool :=
  if s.next_id ≤ id || fsContains s.free_list (Range.id id) then
    (Except.error AlreadyReturned.mk, s)
  else
    let s1 := if id + 1 = s.next_id then { s with next_id := s.next_id - 1 } else s.set_free id
    (Except.ok (), collapseLoop (s1.free_list.length + 1) s1)

/-- Membership of `v` in some stored free range (the semantic free-set
membership used to state the claims). -/
def IndexPool.memFreeList (s : IndexPool) (v : Nat) : Bool :=
  s.free_list.any (fun r => r.contains v)

/-- Modelled from the spec: `is_free` is absent from src/src/lib.rs (only the
tests call it).  Spec section 4.3: true iff `v >= next_id` or the free set
contains `v`. -/
def IndexPool.is_free (s : IndexPool) (v : Nat) : Bool :=
  decide (s.next_id ≤ v) || s.memFreeList v

/-- Modelled from the spec: the FreeSet `mark_used(v)` operation of spec
section 4.2 (absent from src/): find the stored range containing `v`; if none
report failure, else remove it and re-insert the sub-ranges left and right of
`v` when nonempty. -/
def markUsed : List Range → Nat → Option (List Range)
  | [], _ => none
  | r :: rest, v =>
    if r.min ≤ v ∧ v ≤ r.max then
      some ((if r.min < v then [⟨r.min, v - 1⟩] else []) ++
            (if v < r.max then [⟨v + 1, r.max⟩] else []) ++ rest)
    else (markUsed rest v).map (r :: ·)

/-- Modelled from the spec: plain sorted insertion of a range known disjoint
from and non-adjacent to the stored ones (spec section 4.3, case B of
`request_id`). -/
def insertDisjoint : List Range → Range → List Range
  | [], r => [r]
  | x :: xs, r => if r.min < x.min then r :: x :: xs else x :: insertDisjoint xs r

/-- The `usize` upper bound referenced by the `request_id` precondition
`v < NAT_MAX` (64-bit platform). -/
def USIZE_MAX : Nat := 2 ^ 64 - 1

/-- Modelled from the spec: `request_id` is absent from src/src/lib.rs (only
the tests call it).  Spec section 4.3: case A (`v == next_id`) bumps the
frontier; case B (`v > next_id`) stores the gap `[next_id, v-1]` as a free
range and bumps the frontier; case C (`v < next_id`) marks `v` used in the
free set, failing with `AlreadyInUse` when no stored range contains it. -/
def IndexPool.request_id (s : IndexPool) (v : Nat) : Except AlreadyInUse Unit × IndexPool :=
  if v = s.next_id then (Except.ok (), { s with next_id := v + 1 })
  else if s.next_id < v then
    (Except.ok (), { next_id := v + 1, free_list := insertDisjoint s.free_list ⟨s.next_id, v - 1⟩ })
  else
    match markUsed s.free_list v with
    | some fl => (Except.ok (), { s with free_list := fl })
    | none => (Except.error AlreadyInUse.mk, s)

/-- Iterator state shared by `IndexIter` and `IndexAfterIter` of iter.rs (the
two Rust structs have identical fields and an identical `next`); `endIdx`
embeds the field named `end`. -/
structure IndexIter where
  free_ranges : List Range
  next_range : Option Range
  index : Nat
  endIdx : Nat
deriving DecidableEq

/-- `IndexIter::new`: pull the first free range; when it starts at 0, start
the cursor just past it and pull the next range. -/
def IndexIter.new (free : List Range) (endIdx : Nat) : IndexIter :=
  match free with
  | [] => ⟨[], none, 0, endIdx⟩
  | fr :: rest =>
    if fr.min = 0 then ⟨rest.tail, rest.head?, fr.max + 1, endIdx⟩
    else ⟨rest, some fr, 0, endIdx⟩

/-- `IndexAfterIter::new`: like `IndexIter::new` but the cursor starts at
`start`, and the first range is skipped when `fr.min <= start`. -/
def IndexAfterIter.new (free : List Range) (start endIdx : Nat) : IndexIter :=
  match free with
  | [] => ⟨[], none, start, endIdx⟩
  | fr :: rest =>
    if fr.min ≤ start then ⟨rest.tail, rest.head?, fr.max + 1, endIdx⟩
    else ⟨rest, some fr, start, endIdx⟩

/-- `Iterator::next` for both iterators: stop exactly when the cursor EQUALS
`endIdx`; otherwise emit the cursor, step it, and jump over the pending free
range when the stepped cursor reaches its `min`. -/
def IndexIter.next (it : IndexIter) : Option (Nat × IndexIter) :=
  if it.index = it.endIdx then none
  else
    let value := it.index
    let index := it.index + 1
    let st :=
      match it.next_range with
      | some range =>
        if index = range.min then
          { it with index := range.max + 1, next_range := it.free_ranges.head?,
                    free_ranges := it.free_ranges.tail }
        else { it with index := index }
      | none => { it with index := index }
    some (value, st)

/-- Drive the iterator, collecting up to `fuel` emitted values. -/
def IndexIter.emit : Nat → IndexIter → List Nat
  | 0, _ => []
  | fuel + 1, it =>
    match it.next with
    | none => []
    | some (v, it2) => v :: IndexIter.emit fuel it2

/-- Modelled from the spec: the `all_indices` pool method is absent from
src/src/lib.rs; per the spec it builds `IndexIter` from the free set's
ascending iterator with `end = next_id`.  `next_id + 1` fuel suffices: the
cursor strictly increases and the sequence stops at `next_id`. -/
def IndexPool.all_indices (s : IndexPool) : List Nat :=
  IndexIter.emit (s.next_id + 1) (IndexIter.new s.free_list s.next_id)

/-- Modelled from the spec: the `all_indices_after(k)` pool method is absent
from src/src/lib.rs; per the spec it feeds `IndexAfterIter` the stored ranges
with `max >= k` (the set's `iter_from(k)`), with `start = k` and
`end = next_id`. -/
def IndexPool.all_indices_after (s : IndexPool) (k : Nat) : List Nat :=
  IndexIter.emit (s.next_id + 1)
    (IndexAfterIter.new (s.free_list.filter (fun r => decide (k ≤ r.max))) k s.next_id)

/-- The free ranges an iterator state has still to skip: the pending
`next_range` followed by the not-yet-pulled `free_ranges` (when `next_range`
is `none` the iterator never reads `free_ranges` again). -/
def pendOf : Option Range → List Range → List Range
  | none, _ => []
  | some r, rs => r :: rs

/-- One public operation of the pool, for reachability traces. -/
inductive Op : Type where
  | newOp : Op
  | returnOp : Nat → Op
  | requestOp : Nat → Op

/-- Run one operation, maintaining the list of identifiers that have been
issued by `new_id`/`request_id` and not yet reclaimed by `return_id` (the
history-based in-use set of the claims). -/
def stepOp : IndexPool × List Nat → Op → IndexPool × List Nat
  | (s, used), Op.newOp =>
    let r := s.new_id
    (r.2, used.insert r.1)
  | (s, used), Op.returnOp v =>
    let r := s.return_id v
    (r.2, match r.1 with
          | Except.ok _ => used.erase v
          | Except.error _ => used)
  | (s, used), Op.requestOp v =>
    let r := s.request_id v
    (r.2, match r.1 with
          | Except.ok _ => used.insert v
          | Except.error _ => used)

/-- Run a sequence of public operations from an initial pool, returning the
final pool and the history-based in-use list. -/
def runOps (init : IndexPool) (ops : List Op) : IndexPool × List Nat :=
  ops.foldl stepOp (init, [])

/-- `m` is the least natural number outside `used`. -/
def leastNotIn (used : List Nat) (m : Nat) : Prop :=
  m ∉ used ∧ ∀ w, w < m → w ∈ used

instance (used : List Nat) (m : Nat) : Decidable (leastNotIn used m) := by
  unfold leastNotIn; infer_instance

/-- Trace reaching the state `next_id = 10`, free set `{[2,8]}` with 5 freed
as the strict interior of a coalesced range: ten allocations, then returns of
2,3,4 and 6,7,8 (coalescing to `[2,4]` and `[6,8]`), then the return of 5
that bridges them into `[2,8]`. -/
def c2trace : List Op :=
  [Op.newOp, Op.newOp, Op.newOp, Op.newOp, Op.newOp, Op.newOp, Op.newOp, Op.newOp,
   Op.newOp, Op.newOp, Op.returnOp 2, Op.returnOp 3, Op.returnOp 4, Op.returnOp 6,
   Op.returnOp 7, Op.returnOp 8, Op.returnOp 5]

/-- Trace reaching `next_id = 8`, free set `{[2,6]}`, followed by a second
return of 4 (already free, strictly inside `[2,6]`). -/
def c4trace : List Op :=
  [Op.newOp, Op.newOp, Op.newOp, Op.newOp, Op.newOp, Op.newOp, Op.newOp, Op.newOp,
   Op.returnOp 2, Op.returnOp 3, Op.returnOp 4, Op.returnOp 5, Op.returnOp 6,
   Op.returnOp 4]

/-- Trace reaching `next_id = 12`, free set `{[2,6],[9,10]}`, followed by a
second return of 4 which inserts the overlapping singleton `[4,4]` between
them. -/
def c6trace : List Op :=
  [Op.newOp, Op.newOp, Op.newOp, Op.newOp, Op.newOp, Op.newOp, Op.newOp, Op.newOp,
   Op.newOp, Op.newOp, Op.newOp, Op.newOp, Op.returnOp 2, Op.returnOp 3,
   Op.returnOp 4, Op.returnOp 5, Op.returnOp 6, Op.returnOp 9, Op.returnOp 10,
   Op.returnOp 4]

/-- The free-set invariants of the spec (I1, I2, I4 and range validity):
stored ranges are valid, sorted, pairwise disjoint and non-adjacent, and end
strictly below `next_id - 1`. -/
def IndexPool.Inv (s : IndexPool) : Prop :=
  s.free_list.Pairwise (fun a b => a.max + 1 < b.min) ∧
  ∀ r ∈ s.free_list, r.min ≤ r.max ∧ r.max + 1 < s.next_id

instance (s : IndexPool) : Decidable s.Inv := by
  unfold IndexPool.Inv; infer_instance

/-! ## Theorems -/

/-- Claim C1, counterexample: from `with_initial_index(1)` with no operations,
nothing has ever been issued, yet `new_id` returns 1, not the least
never-issued identifier 0.  This refutes the claim for the history-based
in-use notion it states. -/
theorem c1_counterexample :
    ¬ leastNotIn (runOps (IndexPool.with_initial_index 1) []).2
      ((runOps (IndexPool.with_initial_index 1) []).1.new_id).1 := by
  decide

/-- Claim C5, counterexample: from `with_initial_index(1)` with no operations,
`next_id = 1 > 0` but the identifier `next_id - 1 = 0` has never been issued
by `new_id` or `request_id`, so it is not in use in the history sense the
claim states. -/
theorem c5_counterexample :
    0 < (runOps (IndexPool.with_initial_index 1) []).1.next_id ∧
    (runOps (IndexPool.with_initial_index 1) []).1.next_id - 1 ∉
      (runOps (IndexPool.with_initial_index 1) []).2 := by
  decide

/-- Claim C3, counterexample: `[2,3]` and `[0,10]` intersect, but since
neither endpoint of `[0,10]` lies inside `[2,3]`, `cmp` falls through to the
`min` comparison and returns `gt`, not `eq`. -/
theorem c3_counterexample :
    ¬ (Range.cmp ⟨2, 3⟩ ⟨0, 10⟩ = Ordering.eq ↔ Range.intersects ⟨2, 3⟩ ⟨0, 10⟩) := by
  decide

/-- Claim C3, amended: for valid ranges, provided `b` does not strictly
contain `a` (both endpoints of `b` outside `a`), `cmp a b` is `eq` iff the
ranges intersect; and whenever `cmp` is not `eq` it compares the `min`
endpoints. -/
theorem c3_cmp_eq_iff (a b : Range) (ha : a.min ≤ a.max) (hb : b.min ≤ b.max)
    (hnc : ¬(b.min < a.min ∧ a.max < b.max)) :
    (Range.cmp a b = Ordering.eq ↔ a.intersects b) ∧
    (Range.cmp a b ≠ Ordering.eq → Range.cmp a b = compare a.min b.min) := by
  constructor
  · unfold Range.cmp Range.intersects
    by_cases hc : (a.contains b.min || a.contains b.max) = true
    · rw [if_pos hc]
      have hd : (a.min ≤ b.min ∧ b.min ≤ a.max) ∨ (a.min ≤ b.max ∧ b.max ≤ a.max) := by
        simpa [Range.contains] using hc
      exact iff_of_true rfl (by omega)
    · rw [if_neg hc]
      have hd : ¬(a.min ≤ b.min ∧ b.min ≤ a.max) ∧ ¬(a.min ≤ b.max ∧ b.max ≤ a.max) := by
        simpa [Range.contains, not_or] using hc
      constructor
      · intro h
        have := Nat.compare_eq_eq.mp h
        omega
      · intro h
        exact absurd h (by omega)
  · intro hne
    unfold Range.cmp at hne ⊢
    by_cases hc : (a.contains b.min || a.contains b.max) = true
    · exact absurd (if_pos hc) hne
    · rw [if_neg hc]

/-- Witness for C3's amended theorem at `a = [0,0]`, `b = [2,3]`. -/
theorem c3_witness :
    (Range.cmp ⟨0, 0⟩ ⟨2, 3⟩ = Ordering.eq ↔ Range.intersects ⟨0, 0⟩ ⟨2, 3⟩) ∧
    (Range.cmp ⟨0, 0⟩ ⟨2, 3⟩ ≠ Ordering.eq →
      Range.cmp ⟨0, 0⟩ ⟨2, 3⟩ = compare (Range.mk 0 0).min (Range.mk 2 3).min) :=
  c3_cmp_eq_iff ⟨0, 0⟩ ⟨2, 3⟩ (by decide) (by decide) (by decide)

/-- Claim C2, code bug: after `c2trace` the pool is `next_id = 10`, free set
`{[2,8]}`; the identifier 5 lies inside the stored free range, yet an
immediately following `return_id(5)` returns `Ok` instead of
`AlreadyReturned`, because the set lookup only compares 5 against the
endpoints of `[2,8]`. -/
theorem c2_double_return_accepted :
    (runOps IndexPool.new c2trace).1.memFreeList 5 = true ∧
    ((runOps IndexPool.new c2trace).1.return_id 5).1 = Except.ok () := by
  decide

/-- Claim C4, code bug: after `c4trace` (which ends with a double return of
the interior identifier 4) the free set stores `[2,6]` and `[4,4]`, two
ranges that both contain 4 — the disjointness invariant is violated in a
reachable state. -/
theorem c4_overlapping_ranges_reachable :
    (runOps IndexPool.new c4trace).1.free_list = [⟨2, 6⟩, ⟨4, 4⟩] ∧
    Range.contains ⟨2, 6⟩ 4 = true ∧ Range.contains ⟨4, 4⟩ 4 = true := by
  decide

/-- Claim C6, counterexample: after `c6trace` the free set is the corrupted
`{[2,6],[4,4],[9,10]}`; `all_indices` emits 9, which is neither issued (it
was returned and never re-issued) nor outside a stored free range. -/
theorem c6_counterexample :
    9 ∈ (runOps IndexPool.new c6trace).1.all_indices ∧
    9 ∉ (runOps IndexPool.new c6trace).2 ∧
    (runOps IndexPool.new c6trace).1.memFreeList 9 = true := by
  decide

/-- Claim C9, counterexample: in the invariant-satisfying state `next_id = 8`,
free set `{[2,6]}`, the identifier 4 is strictly inside the stored range, yet
`return_id(4)` changes the pool (it inserts the overlapping `[4,4]`). -/
theorem c9_counterexample :
    IndexPool.Inv ⟨8, [⟨2, 6⟩]⟩ ∧ (2 : Nat) < 4 ∧ (4 : Nat) < 6 ∧
    ((IndexPool.mk 8 [⟨2, 6⟩]).return_id 4).2 ≠ IndexPool.mk 8 [⟨2, 6⟩] := by
  decide

/-- Claim C10: on the arithmetic-performing path of `return_id` (guard
passed, so `v < next_id`), the `min - 1` of the low probe is computed only
under `v > 0` where `Nat` subtraction is exact, and every `+ 1` that
`return_id` performs on `v` or on a stored endpoint stays bounded by
`next_id`, hence within `usize`. -/
theorem c10_return_id_arith_safe (s : IndexPool) (v : Nat) (h : s.Inv)
    (hv : v < s.next_id) :
    (0 < v → v - 1 + 1 = v) ∧ v + 1 ≤ s.next_id ∧
    ∀ r ∈ s.free_list, r.max + 1 ≤ s.next_id ∧ r.min + 1 ≤ s.next_id := by
  refine ⟨fun h0 => by omega, by omega, fun r hr => ?_⟩
  have hr2 := h.2 r hr
  omega

/-- Witness for C10 at the state `next_id = 5`, free set `{[1,2]}`, `v = 3`. -/
theorem c10_witness : (3 : Nat) + 1 ≤ (IndexPool.mk 5 [⟨1, 2⟩]).next_id :=
  (c10_return_id_arith_safe ⟨5, [⟨1, 2⟩]⟩ 3 (by decide) (by decide)).2.1

/-- Claim C5, amended: in a state satisfying the free-set invariants with
`next_id > 0`, the identifier `next_id - 1` is in use in the state sense (it
is not free: it is below the frontier and in no stored range), and every
identifier that is not free is below `maximum()` — so `maximum()` is the
highest state-in-use identifier plus one. -/
theorem c5_frontier_not_free (s : IndexPool) (h : s.Inv) (h0 : 0 < s.next_id) :
    s.is_free (s.next_id - 1) = false ∧ ∀ v, s.is_free v = false → v < s.maximum := by
  constructor
  · simp only [IndexPool.is_free, IndexPool.memFreeList, Bool.or_eq_false_iff,
      decide_eq_false_iff_not, List.any_eq_false, Range.contains]
    refine ⟨by omega, fun r hr => ?_⟩
    have hr2 := h.2 r hr
    simp only [decide_eq_true_eq]
    omega
  · intro v hv
    have h1 : ¬ s.next_id ≤ v := by
      intro hle
      simp [IndexPool.is_free, hle] at hv
    unfold IndexPool.maximum
    omega

/-- Witness for C5's amended theorem at the state `next_id = 5`, free set
`{[1,2]}`. -/
theorem c5_witness :
    (IndexPool.mk 5 [⟨1, 2⟩]).is_free ((IndexPool.mk 5 [⟨1, 2⟩]).next_id - 1) = false :=
  (c5_frontier_not_free ⟨5, [⟨1, 2⟩]⟩ (by decide) (by decide)).1

/-- Claim C1, amended: in a state satisfying the free-set invariants,
`new_id` returns the least identifier that is free in the state sense
(at or above the frontier, or inside a stored free range); everything below
the returned identifier is in use. -/
theorem c1_new_id_least_free (s : IndexPool) (h : s.Inv) :
    s.is_free (s.new_id).1 = true ∧ ∀ w, w < (s.new_id).1 → s.is_free w = false := by
  obtain ⟨hpw, hall⟩ := h
  cases hfl : s.free_list with
  | nil =>
    constructor
    · simp [IndexPool.new_id, hfl, IndexPool.is_free]
    · intro w hw
      simp only [IndexPool.new_id, hfl] at hw
      simp only [IndexPool.is_free, IndexPool.memFreeList, hfl, List.any_nil,
        Bool.or_false, decide_eq_false_iff_not]
      omega
  | cons first rest =>
    rw [hfl] at hpw hall
    rw [List.pairwise_cons] at hpw
    have hfirst := hall first (List.mem_cons_self _ _)
    have h1 : (s.new_id).1 = first.min := by simp [IndexPool.new_id, hfl]
    rw [h1]
    constructor
    · simp only [IndexPool.is_free, IndexPool.memFreeList, hfl, List.any_cons,
        Range.contains, Bool.or_eq_true, decide_eq_true_eq]
      exact Or.inr (Or.inl (by omega))
    · intro w hw
      simp only [IndexPool.is_free, IndexPool.memFreeList, hfl, Bool.or_eq_false_iff,
        decide_eq_false_iff_not, List.any_eq_false, Range.contains]
    
      refine ⟨by omega, fun r hr => ?_⟩
      simp only [decide_eq_true_eq]
      rcases List.mem_cons.mp hr with rfl | hr2
      · omega
      · have hp := hpw.1 r hr2
        have hv := hall r (List.mem_cons_of_mem _ hr2)
        omega

/-- Witness for C1's amended theorem at the state `next_id = 5`, free set
`{[1,2]}`. -/
theorem c1_witness :
    IndexPool.Inv ⟨5, [⟨1, 2⟩]⟩ ∧
    (IndexPool.mk 5 [⟨1, 2⟩]).is_free ((IndexPool.mk 5 [⟨1, 2⟩]).new_id).1 = true :=
  ⟨by decide, (c1_new_id_least_free ⟨5, [⟨1, 2⟩]⟩ (by decide)).1⟩

/-- With no pending ranges and `endIdx = 0`, a cursor that starts at a
nonzero position never satisfies the stop test `index == endIdx`, so the
iterator emits every successive position for as much fuel as it is given. -/
theorem emit_no_stop (n : Nat) : ∀ i, i ≠ 0 →
    IndexIter.emit n ⟨[], none, i, 0⟩ = List.range' i n := by
  induction n with
  | zero => intro i _; rfl
  | succ n ih =>
    intro i hi
    simp only [IndexIter.emit, IndexIter.next, if_neg hi]
    rw [List.range'_succ]
    exact congrArg (i :: ·) (ih (i + 1) (by omega))

/-- Claim C7, code bug: `all_indices_after(1)` on the empty pool (where
`maximum() = 0 < 1`) never terminates: with any amount of fuel the iterator
emits the ascending, never-in-use identifiers `1, 2, 3, ...` and never
reaches its stop condition, because `next` stops only on
`index == end` and the cursor starts beyond `end`. -/
theorem c7_after_iter_never_stops (n : Nat) :
    IndexIter.emit n
      (IndexAfterIter.new (IndexPool.new.free_list.filter (fun r => decide (1 ≤ r.max)))
        1 IndexPool.new.next_id) = List.range' 1 n :=
  emit_no_stop n 1 (by omega)

/-- The spec's `mark_used` fails exactly when no stored range contains the
identifier. -/
theorem markUsed_eq_none_iff (l : List Range) (v : Nat) :
    markUsed l v = none ↔ l.any (fun r => r.contains v) = false := by
  induction l with
  | nil => simp [markUsed]
  | cons r rest ih =>
    by_cases hc : r.min ≤ v ∧ v ≤ r.max
    · simp [markUsed, hc, Range.contains]
    · simp [markUsed, hc, Range.contains, ih]
      intro _ h1
      omega

/-- On a pairwise-disjoint list, a successful `mark_used` leaves no stored
range containing the identifier. -/
theorem markUsed_not_contains (l : List Range) (v : Nat)
    (hpw : l.Pairwise (fun a b => a.max + 1 < b.min)) :
    ∀ fl, markUsed l v = some fl → fl.any (fun r => r.contains v) = false := by
  induction l with
  | nil => intro fl h; simp [markUsed] at h
  | cons r rest ih =>
    intro fl h
    rw [List.pairwise_cons] at hpw
    by_cases hc : r.min ≤ v ∧ v ≤ r.max
    · simp only [markUsed, if_pos hc, Option.some.injEq] at h
      subst h
      simp only [List.any_eq_false, List.mem_append, Range.contains, decide_eq_true_eq]
      intro r2 hr2
      rcases hr2 with (hl | hr) | hrest
      · by_cases hlt : r.min < v
        · simp only [if_pos hlt, List.mem_singleton] at hl
          subst hl
          show ¬(r.min ≤ v ∧ v ≤ v - 1)
          omega
        · simp only [if_neg hlt, List.not_mem_nil] at hl
      · by_cases hgt : v < r.max
        · simp only [if_pos hgt, List.mem_singleton] at hr
          subst hr
          show ¬(v + 1 ≤ v ∧ v ≤ r.max)
          omega
        · simp only [if_neg hgt, List.not_mem_nil] at hr
      · have hp := hpw.1 r2 hrest
        omega
    · simp only [markUsed, if_neg hc] at h
      cases hm : markUsed rest v with
      | none => rw [hm] at h; simp at h
      | some fl2 =>
        rw [hm] at h
        simp only [Option.map_some', Option.some.injEq] at h
        subst h
        simp only [List.any_cons, Bool.or_eq_false_iff]
        exact ⟨by simp [Range.contains]; omega, ih hpw.2 fl2 hm⟩

/-- Claim C8: the three-case contract of `request_id`.  Case A (`v` equal to
the frontier) bumps the frontier; case B (`v` above the frontier) records the
gap `[next_id, v-1]` as free and bumps the frontier; case C (`v` below the
frontier) succeeds exactly when some stored range contains `v`, leaves the
pool unchanged on failure, and on success (with a pairwise-disjoint free set)
removes `v` from the free set. -/
theorem c8_request_id_contract (s : IndexPool) (v : Nat) (hv : v < USIZE_MAX) :
    (v = s.next_id → s.request_id v = (Except.ok (), ⟨v + 1, s.free_list⟩)) ∧
    (s.next_id < v →
      s.request_id v =
        (Except.ok (), ⟨v + 1, insertDisjoint s.free_list ⟨s.next_id, v - 1⟩⟩)) ∧
    (v < s.next_id →
      (((s.request_id v).1 = Except.ok ()) ↔ s.memFreeList v = true) ∧
      ((s.request_id v).1 = Except.error AlreadyInUse.mk → (s.request_id v).2 = s) ∧
      (s.free_list.Pairwise (fun a b => a.max + 1 < b.min) →
        (s.request_id v).1 = Except.ok () → (s.request_id v).2.memFreeList v = false)) := by
  refine ⟨?_, ?_, ?_⟩
  · intro he
    subst he
    simp [IndexPool.request_id]
  · intro hlt
    have hne : ¬ v = s.next_id := by omega
    simp [IndexPool.request_id, hne, hlt]
  · intro hlt
    have hne : ¬ v = s.next_id := by omega
    have hng : ¬ s.next_id < v := by omega
    cases hm : markUsed s.free_list v with
    | some fl =>
      have hmem : s.memFreeList v = true := by
        have hnn : ¬ markUsed s.free_list v = none := by simp [hm]
        rw [markUsed_eq_none_iff] at hnn
        unfold IndexPool.memFreeList
        revert hnn
        cases s.free_list.any (fun r => r.contains v) <;> simp
      refine ⟨by simp [IndexPool.request_id, hne, hng, hm, hmem], ?_, ?_⟩
      · intro habs
        simp [IndexPool.request_id, hne, hng, hm] at habs
      · intro hpw _
        simp only [IndexPool.request_id, if_neg hne, if_neg hng, hm]
        unfold IndexPool.memFreeList
        exact markUsed_not_contains s.free_list v hpw fl hm
    | none =>
      have hmem : s.memFreeList v = false := by
        rw [markUsed_eq_none_iff] at hm
        exact hm
      refine ⟨by simp [IndexPool.request_id, hne, hng, hm, hmem], ?_, ?_⟩
      · intro _
        simp [IndexPool.request_id, hne, hng, hm]
      · intro _ habs
        simp [IndexPool.request_id, hne, hng, hm] at habs

/-- Witness for C8 at the empty pool and `v = 0` (case A). -/
theorem c8_witness :
    (IndexPool.mk 0 []).request_id 0 = (Except.ok (), IndexPool.mk 1 []) :=
  (c8_request_id_contract ⟨0, []⟩ 0 (by decide)).1 rfl

/-- Splitting off the leading free range: filtering the positions from
`r.min` on by "not inside a stored range" drops `[r.min, r.max]` entirely and
reduces to the same filter over the remaining ranges from `r.max + 1` on. -/
theorem filter_skip_head (r : Range) (rs : List Range) (e : Nat)
    (hval : r.min ≤ r.max) (hle : r.max + 1 ≤ e) :
    (List.range' r.min (e - r.min)).filter
      (fun v => !((r :: rs).any (fun x => x.contains v))) =
    (List.range' (r.max + 1) (e - (r.max + 1))).filter
      (fun v => !(rs.any (fun x => x.contains v))) := by
  have h1 : e - r.min = (e - (r.max + 1)) + (r.max + 1 - r.min) := by omega
  have h2 : r.min + 1 * (r.max + 1 - r.min) = r.max + 1 := by omega
  have hsplit : List.range' r.min (e - r.min) =
      List.range' r.min (r.max + 1 - r.min) ++ List.range' (r.max + 1) (e - (r.max + 1)) := by
    rw [h1, ← List.range'_append r.min (r.max + 1 - r.min) (e - (r.max + 1)) 1, h2]
  rw [hsplit, List.filter_append]
  have hnil : (List.range' r.min (r.max + 1 - r.min)).filter
      (fun v => !((r :: rs).any (fun x => x.contains v))) = [] := by
    rw [List.filter_eq_nil_iff]
    intro a ha
    rw [List.mem_range'_1] at ha
    intro hcon
    rw [Bool.not_eq_true', List.any_cons, Bool.or_eq_false_iff] at hcon
    have hca : r.contains a = true := by
      simp only [Range.contains, decide_eq_true_eq]
      omega
    rw [hca] at hcon
    simp at hcon
  have hcongr : (List.range' (r.max + 1) (e - (r.max + 1))).filter
      (fun v => !((r :: rs).any (fun x => x.contains v))) =
      (List.range' (r.max + 1) (e - (r.max + 1))).filter
        (fun v => !(rs.any (fun x => x.contains v))) := by
    apply List.filter_congr
    intro a ha
    rw [List.mem_range'_1] at ha
    have hnc : r.contains a = false := by
      simp [Range.contains]
      omega
    simp [List.any_cons, hnc]
  rw [hnil, hcongr, List.nil_append]

/-- Correctness of the shared iterator loop: from a cursor `i` with pending
ranges that are sorted, valid, strictly beyond the cursor and ending below
`e`, the emitted values are exactly the positions of `[i, e)` not inside a
pending range, provided the fuel exceeds `e - i`. -/
theorem emit_spec (fuel : Nat) : ∀ (rs : List Range) (onr : Option Range) (i e : Nat),
    e - i < fuel → i ≤ e →
    (pendOf onr rs).Pairwise (fun a b => a.max + 1 < b.min) →
    (∀ r ∈ pendOf onr rs, r.min ≤ r.max ∧ r.max + 1 ≤ e ∧ i < r.min) →
    IndexIter.emit fuel ⟨rs, onr, i, e⟩ =
      (List.range' i (e - i)).filter (fun v => !((pendOf onr rs).any (fun x => x.contains v))) := by
  induction fuel with
  | zero =>
    intro rs onr i e hf _ _ _
    omega
  | succ n ih =>
    intro rs onr i e hf hie hpw hall
    by_cases hi : i = e
    · subst hi
      simp [IndexIter.emit, IndexIter.next]
    · have hlt : i < e := by omega
      have hstep : e - i = (e - (i + 1)) + 1 := by omega
      have hkeep : (fun v => !((pendOf onr rs).any (fun x => x.contains v))) i = true := by
        simp only [Bool.not_eq_true', List.any_eq_false]
        intro r hr
        have := (hall r hr).2.2
        simp [Range.contains]
        omega
      have hfc : (List.range' i (e - i)).filter
          (fun v => !((pendOf onr rs).any (fun x => x.contains v))) =
          i :: (List.range' (i + 1) (e - (i + 1))).filter
            (fun v => !((pendOf onr rs).any (fun x => x.contains v))) := by
        rw [hstep, List.range'_succ]
        exact List.filter_cons_of_pos hkeep
      rw [hfc]
      cases onr with
      | none =>
        simp only [IndexIter.emit, IndexIter.next, if_neg hi]
        exact congrArg (i :: ·)
          (ih rs none (i + 1) e (by omega) (by omega) hpw (by simp [pendOf]))
      | some r =>
        simp only [pendOf] at hpw hall ⊢
        rw [List.pairwise_cons] at hpw
        have hr0 := hall r (List.mem_cons_self _ _)
        by_cases hm : i + 1 = r.min
        · simp only [IndexIter.emit, IndexIter.next, if_neg hi, if_pos hm]
          have hpend : pendOf rs.head? rs.tail = rs := by cases rs <;> rfl
          have htail : IndexIter.emit n ⟨rs.tail, rs.head?, r.max + 1, e⟩ =
              (List.range' (r.max + 1) (e - (r.max + 1))).filter
                (fun v => !(rs.any (fun x => x.contains v))) := by
            rw [ih rs.tail rs.head? (r.max + 1) e (by omega) (by omega)
              (by rw [hpend]; exact hpw.2)
              (by rw [hpend]; intro r2 hr2
                  exact ⟨(hall r2 (List.mem_cons_of_mem _ hr2)).1,
                    (hall r2 (List.mem_cons_of_mem _ hr2)).2.1, hpw.1 r2 hr2⟩)]
            rw [hpend]
          rw [htail]
          refine congrArg (i :: ·) ?_
          rw [show i + 1 = r.min from hm]
          exact (filter_skip_head r rs e hr0.1 hr0.2.1).symm
        · simp only [IndexIter.emit, IndexIter.next, if_neg hi, if_neg hm]
          refine congrArg (i :: ·) ?_
          rw [ih rs (some r) (i + 1) e (by omega) (by omega)
            (by simp only [pendOf]; exact List.pairwise_cons.mpr hpw)
            (by simp only [pendOf]
                intro r2 hr2
                rcases List.mem_cons.mp hr2 with rfl | hr3
                · exact ⟨hr0.1, hr0.2.1, by omega⟩
                · have hp := hpw.1 r2 hr3
                  exact ⟨(hall r2 (List.mem_cons_of_mem _ hr3)).1,
                    (hall r2 (List.mem_cons_of_mem _ hr3)).2.1, by omega⟩)]
          simp only [pendOf]

/-- Reassembling an iterator's pending list from its head and tail. -/
theorem pend_head_tail (rs : List Range) : pendOf rs.head? rs.tail = rs := by
  cases rs <;> rfl

/-- Claim C6, amended: in a state satisfying the free-set invariants,
`all_indices` yields exactly the identifiers below `next_id` that lie in no
stored free range — the state's in-use identifiers — each exactly once, in
strictly ascending order (and hence a finite sequence). -/
theorem c6_all_indices (s : IndexPool) (h : s.Inv) :
    s.all_indices = (List.range s.next_id).filter (fun v => !s.memFreeList v) ∧
    List.Pairwise (· < ·) s.all_indices := by
  obtain ⟨hpw, hall⟩ := h
  have hmain : s.all_indices = (List.range s.next_id).filter (fun v => !s.memFreeList v) := by
    unfold IndexPool.all_indices IndexPool.memFreeList
    rw [List.range_eq_range']
    cases hfl : s.free_list with
    | nil =>
      rw [show IndexIter.new [] s.next_id = ⟨[], none, 0, s.next_id⟩ from rfl]
      rw [emit_spec (s.next_id + 1) [] none 0 s.next_id (by omega) (by omega)
        (by simp [pendOf]) (by simp [pendOf])]
      simp [pendOf]
    | cons fr rest =>
      rw [hfl] at hpw hall
      rw [List.pairwise_cons] at hpw
      have hfr := hall fr (List.mem_cons_self _ _)
      rw [show IndexIter.new (fr :: rest) s.next_id =
            (if fr.min = 0 then ⟨rest.tail, rest.head?, fr.max + 1, s.next_id⟩
             else ⟨rest, some fr, 0, s.next_id⟩ : IndexIter) from rfl]
      by_cases h0 : fr.min = 0
      · rw [if_pos h0]
        have hpend : pendOf rest.head? rest.tail = rest := pend_head_tail rest
        rw [emit_spec (s.next_id + 1) rest.tail rest.head? (fr.max + 1) s.next_id
          (by omega) (by omega) (by rw [hpend]; exact hpw.2)
          (by rw [hpend]
              intro r2 hr2
              exact ⟨(hall r2 (List.mem_cons_of_mem _ hr2)).1,
                by have := (hall r2 (List.mem_cons_of_mem _ hr2)).2; omega,
                hpw.1 r2 hr2⟩)]
        rw [hpend]
        have hskip := filter_skip_head fr rest s.next_id hfr.1 (by omega)
        rw [h0, Nat.sub_zero] at hskip
        exact hskip.symm
      · rw [if_neg h0]
        rw [emit_spec (s.next_id + 1) rest (some fr) 0 s.next_id (by omega) (by omega)
          (by simp only [pendOf]; exact List.pairwise_cons.mpr hpw)
          (by simp only [pendOf]
              intro r2 hr2
              rcases List.mem_cons.mp hr2 with rfl | hr3
              · exact ⟨hfr.1, by omega, by omega⟩
              · have hp := hpw.1 r2 hr3
                exact ⟨(hall r2 (List.mem_cons_of_mem _ hr3)).1,
                  by have := (hall r2 (List.mem_cons_of_mem _ hr3)).2; omega,
                  by omega⟩)]
        simp only [pendOf, Nat.sub_zero]
  refine ⟨hmain, ?_⟩
  rw [hmain]
  exact (List.pairwise_lt_range s.next_id).filter _

/-- Witness for C6's amended theorem at the state `next_id = 5`, free set
`{[1,2]}` (where the in-use identifiers are 0, 3, 4). -/
theorem c6_witness :
    (IndexPool.mk 5 [⟨1, 2⟩]).all_indices =
      (List.range 5).filter (fun v => !(IndexPool.mk 5 [⟨1, 2⟩]).memFreeList v) :=
  (c6_all_indices ⟨5, [⟨1, 2⟩]⟩ (by decide)).1

/-- Characterization of the Range comparator: `cmp key e` is `Equal` exactly
when `key` contains an endpoint of `e`, or (degenerately) when the `min`
fields coincide. -/
theorem cmp_eq_char (key e : Range) :
    Range.cmp key e = Ordering.eq ↔
      ((key.min ≤ e.min ∧ e.min ≤ key.max) ∨ (key.min ≤ e.max ∧ e.max ≤ key.max) ∨
        key.min = e.min) := by
  unfold Range.cmp Range.contains
  by_cases hc : (decide (key.min ≤ e.min ∧ e.min ≤ key.max) ||
      decide (key.min ≤ e.max ∧ e.max ≤ key.max)) = true
  · rw [if_pos hc]
    simp only [Bool.or_eq_true, decide_eq_true_eq] at hc
    exact iff_of_true rfl (by tauto)
  · rw [if_neg hc]
    simp only [Bool.or_eq_true, decide_eq_true_eq, not_or] at hc
    rw [Nat.compare_eq_eq]
    constructor
    · intro h
      exact Or.inr (Or.inr h)
    · intro h
      rcases h with h | h | h
      · exact absurd h hc.1
      · exact absurd h hc.2
      · exact h

/-- Equality test of `Ordering` values against `eq`, in propositional form. -/
theorem beq_ordering_eq (x : Ordering) : (x == Ordering.eq) = true ↔ x = Ordering.eq := by
  cases x <;> decide

/-- Boolean form of the comparator characterization for a probe key with
explicit endpoints. -/
theorem cmp_mk_eq_iff (kmin kmax : Nat) (e : Range) :
    (Range.cmp ⟨kmin, kmax⟩ e == Ordering.eq) = true ↔
      ((kmin ≤ e.min ∧ e.min ≤ kmax) ∨ (kmin ≤ e.max ∧ e.max ≤ kmax) ∨ kmin = e.min) := by
  rw [beq_ordering_eq]
  exact cmp_eq_char ⟨kmin, kmax⟩ e

/-- A valid range compares equal to itself. -/
theorem cmp_self_eq {a : Range} (hva : a.min ≤ a.max) : Range.cmp a a = Ordering.eq := by
  rw [cmp_eq_char]
  omega

/-- A valid range entirely below another valid range compares less. -/
theorem cmp_lt_of_below {a b : Range} (hva : a.min ≤ a.max) (hvb : b.min ≤ b.max)
    (h : a.max < b.min) :
    Range.cmp a b = Ordering.lt := by
  unfold Range.cmp Range.contains
  rw [if_neg (by simp only [Bool.or_eq_true, decide_eq_true_eq]; omega)]
  rw [Nat.compare_eq_lt]
  omega

/-- A valid range entirely above another valid range compares greater. -/
theorem cmp_gt_of_above {a b : Range} (hvb : b.min ≤ b.max) (h : b.max < a.min) :
    Range.cmp a b = Ordering.gt := by
  unfold Range.cmp Range.contains
  rw [if_neg (by simp only [Bool.or_eq_true, decide_eq_true_eq]; omega)]
  rw [Nat.compare_eq_gt]
  omega

/-- On a pairwise sorted-and-separated list, two distinct members are
separated one way or the other. -/
theorem pairwise_disjoint_cases {l : List Range}
    (hpw : l.Pairwise (fun a b => a.max + 1 < b.min)) {a b : Range}
    (ha : a ∈ l) (hb : b ∈ l) (hne : a ≠ b) :
    a.max + 1 < b.min ∨ b.max + 1 < a.min := by
  have h2 : l.Pairwise (fun x y => x.max + 1 < y.min ∨ y.max + 1 < x.min) :=
    hpw.imp (fun h => Or.inl h)
  exact h2.forall (fun x y hxy => hxy.symm) ha hb hne

/-- `fsGet` finds the unique element comparing equal to the key. -/
theorem fsGet_eq_some {l : List Range} {key r : Range} (hr : r ∈ l)
    (hpr : (Range.cmp key r == Ordering.eq) = true)
    (hothers : ∀ e ∈ l, e ≠ r → (Range.cmp key e == Ordering.eq) = false) :
    fsGet l key = some r := by
  unfold fsGet
  induction l with
  | nil => cases hr
  | cons a tl ih =>
    by_cases hae : a = r
    · subst hae
      exact List.find?_cons_of_pos _ hpr
    · have hfa := hothers a (List.mem_cons_self _ _) hae
      rw [List.find?_cons_of_neg _ (by simp [hfa])]
      refine ih ?_ (fun e he hne => hothers e (List.mem_cons_of_mem _ he) hne)
      rcases List.mem_cons.mp hr with h | h
      · exact absurd h.symm hae
      · exact h

/-- `fsGet` finds nothing when no element compares equal to the key. -/
theorem fsGet_eq_none {l : List Range} {key : Range}
    (h : ∀ e ∈ l, (Range.cmp key e == Ordering.eq) = false) : fsGet l key = none := by
  unfold fsGet
  rw [List.find?_eq_none]
  intro x hx
  simp [h x hx]

/-- An invariant-satisfying list does not retain its removed element. -/
theorem not_mem_fsRemove_self {l : List Range}
    (hpw : l.Pairwise (fun a b => a.max + 1 < b.min))
    (hval : ∀ e ∈ l, e.min ≤ e.max) {r : Range} (hr : r ∈ l) :
    r ∉ fsRemove l r := by
  induction l with
  | nil => cases hr
  | cons a tl ih =>
    rw [List.pairwise_cons] at hpw
    have hva := hval a (List.mem_cons_self _ _)
    by_cases hae : a = r
    · subst hae
      rw [show fsRemove (a :: tl) a = tl from by
        unfold fsRemove
        exact List.eraseP_cons_of_pos (by rw [cmp_self_eq hva]; decide)]
      intro hmem
      have h1 := hpw.1 a hmem
      omega
    · have hrtl : r ∈ tl := by
        rcases List.mem_cons.mp hr with h | h
        · exact absurd h.symm hae
        · exact h
      have har := hpw.1 r hrtl
      have hcgt : Range.cmp r a = Ordering.gt := cmp_gt_of_above hva (by omega)
      rw [show fsRemove (a :: tl) r = a :: fsRemove tl r from by
        unfold fsRemove
        exact List.eraseP_cons_of_neg (by rw [hcgt]; decide)]
      intro hmem
      rcases List.mem_cons.mp hmem with h | h
      · exact hae h.symm
      · exact ih hpw.2 (fun e he => hval e (List.mem_cons_of_mem _ he)) hrtl h

/-- Removing the same element a second time is a no-op on an
invariant-satisfying list. -/
theorem fsRemove_fsRemove_self {l : List Range}
    (hpw : l.Pairwise (fun a b => a.max + 1 < b.min))
    (hval : ∀ e ∈ l, e.min ≤ e.max) {r : Range} (hr : r ∈ l) :
    fsRemove (fsRemove l r) r = fsRemove l r := by
  apply List.eraseP_of_forall_not
  intro e he
  have hel : e ∈ l := List.mem_of_mem_eraseP he
  have hner : e ≠ r := fun hEq => not_mem_fsRemove_self hpw hval hr (hEq ▸ he)
  rcases pairwise_disjoint_cases hpw hel hr hner with hc | hc
  · have hgt := cmp_gt_of_above (hval e hel) (show e.max < r.min by omega)
    rw [hgt]
    decide
  · have hlt := cmp_lt_of_below (hval r hr) (hval e hel) (show r.max < e.min by omega)
    rw [hlt]
    decide

/-- Removing an element of an invariant-satisfying list and re-inserting it
restores the list. -/
theorem fsInsert_fsRemove_self {l : List Range}
    (hpw : l.Pairwise (fun a b => a.max + 1 < b.min))
    (hval : ∀ e ∈ l, e.min ≤ e.max) {r : Range} (hr : r ∈ l) :
    fsInsert (fsRemove l r) r = l := by
  induction l with
  | nil => cases hr
  | cons a tl ih =>
    rw [List.pairwise_cons] at hpw
    have hva := hval a (List.mem_cons_self _ _)
    by_cases hae : a = r
    · subst hae
      rw [show fsRemove (a :: tl) a = tl from by
        unfold fsRemove
        exact List.eraseP_cons_of_pos (by rw [cmp_self_eq hva]; decide)]
      cases tl with
      | nil => rfl
      | cons b tl2 =>
        have hab := hpw.1 b (List.mem_cons_self _ _)
        have hvb := hval b (List.mem_cons_of_mem _ (List.mem_cons_self _ _))
        have hcmp : Range.cmp a b = Ordering.lt := cmp_lt_of_below hva hvb (by omega)
        show (match Range.cmp a b with
          | Ordering.lt => a :: b :: tl2
          | Ordering.eq => b :: tl2
          | Ordering.gt => b :: fsInsert tl2 a) = a :: b :: tl2
        rw [hcmp]
    · have hrtl : r ∈ tl := by
        rcases List.mem_cons.mp hr with h | h
        · exact absurd h.symm hae
        · exact h
      have har := hpw.1 r hrtl
      have hcgt : Range.cmp r a = Ordering.gt := cmp_gt_of_above hva (by omega)
      rw [show fsRemove (a :: tl) r = a :: fsRemove tl r from by
        unfold fsRemove
        exact List.eraseP_cons_of_neg (by rw [hcgt]; decide)]
      rw [show fsInsert (a :: fsRemove tl r) r = a :: fsInsert (fsRemove tl r) r from by
        show (match Range.cmp r a with
          | Ordering.lt => r :: a :: fsRemove tl r
          | Ordering.eq => a :: fsRemove tl r
          | Ordering.gt => a :: fsInsert (fsRemove tl r) r) = a :: fsInsert (fsRemove tl r) r
        rw [hcgt]]
      rw [ih hpw.2 (fun e he => hval e (List.mem_cons_of_mem _ he)) hrtl]

/-- Merging a range with a contained singleton is the range itself. -/
theorem merge_id_self {r : Range} {v : Nat} (h1 : r.min ≤ v) (h2 : v ≤ r.max) :
    r.merge (Range.id v) = r := by
  cases r with
  | mk rmin rmax =>
    unfold Range.merge Range.id
    simp only [Range.mk.injEq]
    dsimp only at h1 h2
    constructor
    · exact Nat.min_eq_left h1
    · exact Nat.max_eq_left h2

/-- Merging a range with itself is the range itself. -/
theorem merge_self (r : Range) : r.merge r = r := by
  cases r with
  | mk rmin rmax =>
    unfold Range.merge
    simp only [Range.mk.injEq]
    constructor
    · exact Nat.min_self rmin
    · exact Nat.max_self rmax

/-- Under the invariants no stored range abuts the frontier, so the collapse
loop leaves the pool unchanged. -/
theorem collapseLoop_inv (n : Nat) (s : IndexPool) (h : s.Inv) : collapseLoop n s = s := by
  cases n with
  | zero => rfl
  | succ n =>
    have hcn : s.collapse_next = (false, s) := by
      unfold IndexPool.collapse_next
      cases hgl : s.free_list.getLast? with
      | none => rfl
      | some last =>
        have hmem : last ∈ s.free_list := by
          obtain ⟨hne, heq⟩ := List.mem_getLast?_eq_getLast
            (show last ∈ s.free_list.getLast? from by rw [hgl]; exact Option.mem_some_self last)
          exact heq ▸ List.getLast_mem hne
        have hlt := (h.2 last hmem).2
        dsimp only
        rw [if_neg (show ¬(last.max + 1 = s.next_id) by omega)]
    unfold collapseLoop
    rw [hcn]
    dsimp only
    rw [if_neg Bool.false_ne_true]

/-- Claim C9, amended: in a state satisfying the free-set invariants, for an
identifier `v` strictly inside a stored range `[a,b]` and adjacent to one of
its endpoints (`v = a + 1` or `v = b - 1`), `return_id(v)` returns `Ok` (the
double-free goes undetected, see C2) and leaves the pool state unchanged: the
neighbour probes find `[a,b]` itself, merging re-creates it, and the collapse
loop fires on nothing. -/
theorem c9_return_interior_frame (s : IndexPool) (r : Range) (v : Nat)
    (h : s.Inv) (hr : r ∈ s.free_list) (h1 : r.min < v) (h2 : v < r.max)
    (hnear : v = r.min + 1 ∨ v + 1 = r.max) :
    s.return_id v = (Except.ok (), s) := by
  obtain ⟨hpw, hall⟩ := h
  have hvr := hall r hr
  have hvalall : ∀ e ∈ s.free_list, e.min ≤ e.max := fun e he => (hall e he).1
  have hv0 : v > 0 := by omega
  have hcont : fsContains s.free_list (Range.id v) = false := by
    unfold fsContains
    rw [List.any_eq_false]
    intro e he
    by_cases hne : e = r
    · subst hne
      intro habs
      have hp := (cmp_mk_eq_iff v v e).mp habs
      omega
    · intro habs
      have hp := (cmp_mk_eq_iff v v e).mp habs
      have hd := pairwise_disjoint_cases hpw he hr hne
      have hve := hvalall e he
      omega
  have hothersF : ∀ e ∈ s.free_list, e ≠ r →
      (Range.cmp (⟨v - 1, v⟩ : Range) e == Ordering.eq) = false := by
    intro e he hne
    rw [Bool.eq_false_iff]
    intro habs
    have hp := (cmp_mk_eq_iff (v - 1) v e).mp habs
    have hd := pairwise_disjoint_cases hpw he hr hne
    have hve := hvalall e he
    omega
  have hothersB : ∀ e ∈ s.free_list, e ≠ r →
      (Range.cmp (⟨v, v + 1⟩ : Range) e == Ordering.eq) = false := by
    intro e he hne
    rw [Bool.eq_false_iff]
    intro habs
    have hp := (cmp_mk_eq_iff v (v + 1) e).mp habs
    have hd := pairwise_disjoint_cases hpw he hr hne
    have hve := hvalall e he
    omega
  have hsf : s.set_free v = s := by
    unfold IndexPool.set_free
    dsimp only
    rw [if_pos hv0]
    by_cases hfm : r.min = v - 1
    · have hfget : fsGet s.free_list ((Range.id v).push_front) = some r := by
        rw [show (Range.id v).push_front = (⟨v - 1, v⟩ : Range) from rfl]
        exact fsGet_eq_some hr ((cmp_mk_eq_iff (v - 1) v r).mpr (by omega)) hothersF
      by_cases hbm : r.max = v + 1
      · have hbget : fsGet s.free_list ((Range.id v).push_back) = some r := by
          rw [show (Range.id v).push_back = (⟨v, v + 1⟩ : Range) from rfl]
          exact fsGet_eq_some hr ((cmp_mk_eq_iff v (v + 1) r).mpr (by omega)) hothersB
        rw [hfget, hbget]
        show { s with free_list := fsInsert (fsRemove (fsRemove s.free_list r) r) ((r.merge (Range.id v)).merge r) } = s
        rw [merge_id_self (by omega) (by omega), merge_self]
        rw [fsRemove_fsRemove_self hpw hvalall hr, fsInsert_fsRemove_self hpw hvalall hr]
      · have hbget : fsGet s.free_list ((Range.id v).push_back) = none := by
          rw [show (Range.id v).push_back = (⟨v, v + 1⟩ : Range) from rfl]
          apply fsGet_eq_none
          intro e he
          by_cases hne : e = r
          · subst hne
            rw [Bool.eq_false_iff]
            intro habs
            have hp := (cmp_mk_eq_iff v (v + 1) e).mp habs
            omega
          · exact hothersB e he hne
        rw [hfget, hbget]
        show { s with free_list := fsInsert (fsRemove s.free_list r) (r.merge (Range.id v)) } = s
        rw [merge_id_self (by omega) (by omega), fsInsert_fsRemove_self hpw hvalall hr]
    · have hbm : r.max = v + 1 := by rcases hnear with hm | hm <;> omega
      have hfget : fsGet s.free_list ((Range.id v).push_front) = none := by
        rw [show (Range.id v).push_front = (⟨v - 1, v⟩ : Range) from rfl]
        apply fsGet_eq_none
        intro e he
        by_cases hne : e = r
        · subst hne
          rw [Bool.eq_false_iff]
          intro habs
          have hp := (cmp_mk_eq_iff (v - 1) v e).mp habs
          omega
        · exact hothersF e he hne
      have hbget : fsGet s.free_list ((Range.id v).push_back) = some r := by
        rw [show (Range.id v).push_back = (⟨v, v + 1⟩ : Range) from rfl]
        exact fsGet_eq_some hr ((cmp_mk_eq_iff v (v + 1) r).mpr (by omega)) hothersB
      rw [hfget, hbget]
      show { s with free_list := fsInsert (fsRemove s.free_list r) (r.merge (Range.id v)) } = s
      rw [merge_id_self (by omega) (by omega), fsInsert_fsRemove_self hpw hvalall hr]
  have hguard : (decide (s.next_id ≤ v) || fsContains s.free_list (Range.id v)) = false := by
    rw [hcont]
    simp only [Bool.or_false, decide_eq_false_iff_not]
    omega
  unfold IndexPool.return_id
  rw [hguard, if_neg Bool.false_ne_true]
  dsimp only
  rw [if_neg (show ¬(v + 1 = s.next_id) by omega)]
  rw [hsf, collapseLoop_inv (s.free_list.length + 1) s ⟨hpw, hall⟩]

/-- Witness for C9's amended theorem: in the state `next_id = 8`, free set
`{[2,6]}`, returning the near-endpoint interior identifier 3 succeeds and
leaves the pool unchanged. -/
theorem c9_witness :
    IndexPool.Inv ⟨8, [⟨2, 6⟩]⟩ ∧
    (IndexPool.mk 8 [⟨2, 6⟩]).return_id 3 = (Except.ok (), IndexPool.mk 8 [⟨2, 6⟩]) :=
  ⟨by decide, c9_return_interior_frame ⟨8, [⟨2, 6⟩]⟩ ⟨2, 6⟩ 3 (by decide)
    (by decide) (by decide) (by decide) (Or.inl (by decide))⟩
